import Mathlib

/-!
Verification development for the hackers-library repository: a shallow
embedding of its archive deduplicators (`extract_and_dedup` in
books/util/unduplicate.py and books/util/book_sorter.py, `prepare_root_dir`
in src/util/book_sorter.py) and its topic sorters (`organize_files` in
books/util/book_sorter.py and `organize_by_keywords` in
src/util/book_sorter.py), together with theorems about their invariants.

File contents are modeled as lists of bytes (`List Nat`); the MD5 digest
(`compute_md5`, a black box from hashlib) is modeled as an arbitrary
function parameter `md5 : List Nat → String`.  Filesystem directories are
modeled as association lists from path strings to contents.  Python text
primitives (str.lower, str.strip, str.splitlines, substring tests,
pathlib's stem/suffix/name and with_stem) are modeled on `List Char`.
-/

/-- Characters Python's str.strip removes (ASCII whitespace). -/
def pyWs (c : Char) : Bool :=
  c = ' ' || c = '\t' || c = '\n' || c = '\r' || c = '\x0b' || c = '\x0c'

/-- Model of Python str.lower (ASCII case folding, as used on ASCII triggers/terms). -/
def pyLower (s : String) : String :=
  (s.toList.map Char.toLower).asString

/-- Model of Python str.strip on a character list. -/
def pyStripList (l : List Char) : List Char :=
  (((l.dropWhile pyWs).reverse.dropWhile pyWs)).reverse

/-- Model of Python str.strip. -/
def pyStrip (s : String) : String :=
  (pyStripList s.toList).asString

/-- Decides whether the first list is an initial segment of the second. -/
def listIsPre : List Char → List Char → Bool
  | [], _ => true
  | _ :: _, [] => false
  | a :: as, b :: bs => a = b && listIsPre as bs

/-- Decides whether `needle` occurs contiguously inside `hay`. -/
def listSub (needle : List Char) : List Char → Bool
  | [] => listIsPre needle []
  | b :: bs => listIsPre needle (b :: bs) || listSub needle bs

/-- Model of Python's `needle in hay` substring test. -/
def pyIn (needle hay : String) : Bool :=
  listSub needle.toList hay.toList

/-- Splits a character list at every occurrence of `sep` (Python str.split semantics:
n separators yield n+1 pieces). -/
def splitCharAux (sep : Char) : List Char → List Char → List (List Char)
  | [], acc => [acc.reverse]
  | c :: cs, acc =>
    if c = sep then acc.reverse :: splitCharAux sep cs []
    else splitCharAux sep cs (c :: acc)

/-- Drops one trailing carriage return, modeling the \r\n case of splitlines. -/
def stripCR (l : List Char) : List Char :=
  match l.reverse with
  | '\r' :: rest => rest.reverse
  | _ => l

/-- Model of Python str.splitlines for \n / \r\n separated text: split on
newlines and drop the empty final piece a trailing newline would produce. -/
def pySplitlines (s : String) : List String :=
  let ps := (splitCharAux '\n' s.toList []).map (fun l => (stripCR l).asString)
  match ps.reverse with
  | [] => []
  | last :: rest => if last = "" then rest.reverse else ps

/-- Model of pathlib's Path(...).name: the component after the last slash. -/
def pyBasename (s : String) : String :=
  ((s.toList.reverse.takeWhile (fun c => decide (c ≠ '/'))).reverse).asString

/-- Index of the last dot in the list, if any. -/
def rfindDot (cs : List Char) : Option Nat :=
  ((List.range cs.length).filter (fun i => decide (cs.getD i ' ' = '.'))).getLast?

/-- Model of pathlib's (stem, suffix) split of a file name: the name splits at
the last dot when that dot is neither the first nor the last character. -/
def splitStemSuffix (name : String) : String × String :=
  let cs := name.toList
  match rfindDot cs with
  | some i =>
    if 0 < i ∧ i < cs.length - 1 then ((cs.take i).asString, (cs.drop i).asString)
    else (name, "")
  | none => (name, "")

/-- Model of `path.with_stem(path.stem + "_copy")`. -/
def nextCopyName (name : String) : String :=
  let p := splitStemSuffix name
  p.1 ++ "_copy" ++ p.2

/-- Decimal digit characters of `n`, most significant first (fuel-driven so the
definition is structural and kernel-reducible). -/
def natReprAux : Nat → Nat → List Char
  | 0, _ => []
  | fuel + 1, n =>
    if n < 10 then [Nat.digitChar n]
    else natReprAux fuel (n / 10) ++ [Nat.digitChar (n % 10)]

/-- Decimal representation of a natural number, modeling Python's f-string of an int. -/
def natRepr (n : Nat) : String :=
  (natReprAux (n + 1) n).asString

/-- The `while final_path.exists(): final_path = ..."_copy"...` loop of
extract_and_dedup, run with explicit fuel (the loop body appends `_copy`
before the suffix each iteration). -/
def freeNameAux (taken : List String) : Nat → String → String
  | 0, current => current
  | fuel + 1, current =>
    if current ∈ taken then freeNameAux taken fuel (nextCopyName current)
    else current

/-- Final name chosen by extract_and_dedup's collision loop.  Fuel one larger
than the number of taken names suffices because the candidate names all have
distinct lengths. -/
def freeCopyName (taken : List String) (name : String) : String :=
  freeNameAux taken (taken.length + 1) name

/-- The candidate destination names tried by organize_files' collision loop:
the original name first, then stem_1, stem_2, ... before the suffix. -/
def counterCand (stem sfx : String) : Nat → String
  | 0 => stem ++ sfx
  | k + 1 => stem ++ "_" ++ natRepr (k + 1) ++ sfx

/-- The `counter = 1; while new_name.exists(): new_name = stem_counter+suffix`
loop of organize_files, run with explicit fuel. -/
def counterNameAux (taken : List String) (stem sfx : String) : Nat → Nat → String → String
  | 0, _, current => current
  | fuel + 1, counter, current =>
    if current ∈ taken then
      counterNameAux taken stem sfx fuel (counter + 1) (stem ++ "_" ++ natRepr counter ++ sfx)
    else current

/-- Final name chosen by organize_files' collision loop. -/
def counterFreeName (taken : List String) (name : String) : String :=
  let p := splitStemSuffix name
  counterNameAux taken p.1 p.2 (taken.length + 1) 1 name

/-- A zip archive member: its path inside the archive, its directory flag and
its extracted byte content. -/
structure Member where
  filename : String
  isDir : Bool
  content : List Nat
deriving DecidableEq

/-- An archive, as the enumeration order of its non-directory members. -/
abbrev Archive := List Member

/-- State of extract_and_dedup: the flat output directory (name ↦ bytes, the
per-archive __temp scratch dir is separate and removed) and the seen_hashes
dict (md5 hex digest ↦ chosen final path). -/
structure DedupState where
  store : List (String × List Nat)
  seen : List (String × String)
deriving DecidableEq

/-- One member step of extract_and_dedup (books/util/unduplicate.py and
books/util/book_sorter.py, identical logic): skip directories, extract to the
scratch dir, hash; a seen hash is discarded, otherwise the basename is
disambiguated with the `_copy` loop, the file is moved into the store and the
hash recorded. -/
def dedupMember (md5 : List Nat → String) (st : DedupState) (m : Member) : DedupState :=
  if m.isDir then st
  else
    let h := md5 m.content
    if h ∈ st.seen.map Prod.fst then st
    else
      let final := freeCopyName (st.store.map Prod.fst) (pyBasename m.filename)
      ⟨st.store ++ [(final, m.content)], st.seen ++ [(h, final)]⟩

/-- Processing of one archive by extract_and_dedup. -/
def dedupArchive (md5 : List Nat → String) (st : DedupState) (arch : Archive) : DedupState :=
  arch.foldl (dedupMember md5) st

/-- extract_and_dedup run over a list of archives into a fresh output directory. -/
def extract_and_dedup (md5 : List Nat → String) (zips : List Archive) : DedupState :=
  zips.foldl (dedupArchive md5) ⟨[], []⟩

/-- Removes the entry at path `k` from a directory (os.remove). -/
def fsRemove (k : String) (fs : List (String × List Nat)) : List (String × List Nat) :=
  fs.filter (fun e => decide (e.1 ≠ k))

/-- Writes content `v` at path `k`, replacing any existing file there. -/
def fsWrite (k : String) (v : List Nat) (fs : List (String × List Nat)) :
    List (String × List Nat) :=
  fsRemove k fs ++ [(k, v)]

/-- State of prepare_root_dir: the files under ROOT_OUTPUT (keyed by their
path relative to it — extraction happens directly inside ROOT_OUTPUT), the
seen_hashes set and the three counters it reports. -/
structure PrepState where
  fs : List (String × List Nat)
  seen : List String
  extracted : Nat
  duplicates : Nat
  empty : Nat
deriving DecidableEq

/-- One member step of prepare_root_dir (src/util/book_sorter.py): skip
directories; extract the member at its archive path directly under
ROOT_OUTPUT; remove zero-byte files counting them empty; remove files whose
hash was seen counting them duplicates; otherwise record the hash and move the
file to its basename, appending `_copy` once (a single `if`, not a loop) when
that name exists — the move overwrites any file already at the final name. -/
def prepMember (md5 : List Nat → String) (st : PrepState) (m : Member) : PrepState :=
  if m.isDir then st
  else
    let fs1 := fsWrite m.filename m.content st.fs
    if m.content.length = 0 then
      { st with fs := fsRemove m.filename fs1, empty := st.empty + 1 }
    else
      let h := md5 m.content
      if h ∈ st.seen then
        { st with fs := fsRemove m.filename fs1, duplicates := st.duplicates + 1 }
      else
        let base := pyBasename m.filename
        let final := if base ∈ fs1.map Prod.fst then nextCopyName base else base
        { fs := fsWrite final m.content (fsRemove m.filename fs1)
          seen := st.seen ++ [h]
          extracted := st.extracted + 1
          duplicates := st.duplicates
          empty := st.empty }

/-- prepare_root_dir run over the configured archives into a fresh ROOT_OUTPUT. -/
def prepare_root_dir (md5 : List Nat → String) (zips : List Archive) : PrepState :=
  zips.foldl (fun st arch => arch.foldl (prepMember md5) st) ⟨[], [], 0, 0, 0⟩

/-- The KEYWORD_TRIGGERS constant of src/util/book_sorter.py. -/
def KEYWORD_TRIGGERS : List String :=
  ["keywords", "index terms", "topics", "subject"]

/-- The CATEGORIES table of src/util/book_sorter.py, in declaration order
(Python dicts preserve insertion order). -/
def CATEGORIES : List (String × List String) :=
  [("Programming", ["programming", "code", "software", "python", "java"]),
   ("Penetration Testing", ["exploit", "payload", "burp", "nmap", "pentest"]),
   ("Cryptography", ["rsa", "aes", "encryption", "cipher"]),
   ("Digital Forensics", ["forensics", "evidence", "analysis"]),
   ("Network Security", ["firewall", "network", "tcp/ip", "snort", "vpn"]),
   ("Cyber Law", ["compliance", "regulation", "law", "gdpr"])]

/-- The character class of the regex [a-zA-Z0-9\- ]+ in extract_keywords:
ASCII alphanumerics, hyphen and space. -/
def kwChar (c : Char) : Bool :=
  c.isAlphanum || c = '-' || c = ' '

/-- Maximal nonempty runs of characters satisfying `p`, fuel-driven: the model
of re.findall over a single-character-class pattern. -/
def findRunsAux (p : Char → Bool) : Nat → List Char → List (List Char)
  | 0, _ => []
  | fuel + 1, cs =>
    match cs with
    | [] => []
    | c :: rest =>
      if p c then (c :: rest.takeWhile p) :: findRunsAux p fuel (rest.dropWhile p)
      else findRunsAux p fuel rest

/-- Maximal nonempty runs of characters satisfying `p`. -/
def findRuns (p : Char → Bool) (cs : List Char) : List (List Char) :=
  findRunsAux p cs.length cs

/-- The candidate tokens extract_keywords collects from one (already
lowercased) line when a trigger matched: the findall runs, stripped, kept when
the stripped length exceeds 3. -/
def lineTokens (line : String) : List String :=
  ((findRuns kwChar line.toList).map (fun w => pyStrip w.asString)).filter
    (fun w => decide (3 < w.length))

/-- extract_keywords of src/util/book_sorter.py: lowercase the text, scan its
lines, and for every trigger contained in a line collect that line's tokens;
finally deduplicate (list(set(...)), whose arbitrary iteration order is
modeled by List.dedup). -/
def extract_keywords (text : String) : List String :=
  (((pySplitlines (pyLower text)).flatMap (fun line =>
    KEYWORD_TRIGGERS.flatMap (fun trigger =>
      if pyIn trigger line then lineTokens line else []))).dedup)

/-- The match test of categorize_by_keywords' inner loops: some term of the
category occurs as a substring of some keyword's lowercasing. -/
def catMatch (c : String × List String) (keywords : List String) : Bool :=
  c.2.any (fun term => keywords.any (fun kw => pyIn term (pyLower kw)))

/-- The category loop of categorize_by_keywords: the first table entry with a
matching term wins; otherwise "Uncategorized". -/
def categorizeAux (keywords : List String) : List (String × List String) → String
  | [] => "Uncategorized"
  | c :: rest => if catMatch c keywords then c.1 else categorizeAux keywords rest

/-- categorize_by_keywords of src/util/book_sorter.py. -/
def categorize_by_keywords (keywords : List String) : String :=
  categorizeAux keywords CATEGORIES

/-- The zero-shot classifier's result: labels sorted by score with the top
label first, as returned by the transformers pipeline. -/
structure ZSResult where
  labels : List String
  scores : List ℚ
deriving DecidableEq

/-- The external black boxes used by books/util/book_sorter.py: the raw
fitz/ebooklib/file readers (which may raise) and the zero-shot classifier
(which may raise).  Scores are modeled as rationals. -/
structure MLSortEnv where
  pdfRaw : String → Except String String
  epubRaw : String → Except String String
  txtRaw : String → Except String String
  classifier : String → Except String ZSResult

/-- extract_text_from_pdf of books/util/book_sorter.py: the fitz extraction is
wrapped in try/except, returning "" on any failure. -/
def extract_text_from_pdf (env : MLSortEnv) (f : String) : String :=
  match env.pdfRaw f with
  | Except.ok t => t
  | Except.error _ => ""

/-- extract_text_from_epub of books/util/book_sorter.py (try/except → ""). -/
def extract_text_from_epub (env : MLSortEnv) (f : String) : String :=
  match env.epubRaw f with
  | Except.ok t => t
  | Except.error _ => ""

/-- extract_text_from_txt of books/util/book_sorter.py (try/except → ""). -/
def extract_text_from_txt (env : MLSortEnv) (f : String) : String :=
  match env.txtRaw f with
  | Except.ok t => t
  | Except.error _ => ""

/-- classify_text of books/util/book_sorter.py: call the classifier (no
try/except — a raised exception propagates, modeled by Except) and accept the
top label only when its score strictly exceeds 0.4. -/
def classify_text (env : MLSortEnv) (text : String) : Except String String :=
  (env.classifier text).map (fun r =>
    if mkRat 2 5 < r.scores.getD 0 0 then r.labels.getD 0 "" else "Uncategorized")

/-- A loose document file in the dedup store: its base name and bytes. -/
structure SFile where
  name : String
  content : List Nat
deriving DecidableEq

/-- State of organize_files: the categorized tree as (category, file name,
bytes) entries, and the files skipped as unreadable or empty (the printed
warnings). -/
structure MLSortState where
  tree : List (String × String × List Nat)
  skipped : List String
deriving DecidableEq

/-- The suffix dispatch of organize_files: extract text with the extractor
matching the lowercased suffix, or leave it empty. -/
def mlExtractText (env : MLSortEnv) (f : SFile) : String :=
  let sfx := pyLower (splitStemSuffix f.name).2
  if sfx = ".pdf" then extract_text_from_pdf env f.name
  else if sfx = ".epub" then extract_text_from_epub env f.name
  else if sfx = ".txt" then extract_text_from_txt env f.name
  else ""

/-- The names already present in category `cat` of the tree. -/
def catNames (tree : List (String × String × List Nat)) (cat : String) : List String :=
  (tree.filter (fun e => decide (e.1 = cat))).map (fun e => e.2.1)

/-- One file step of organize_files (books/util/book_sorter.py): extract text
by suffix; skip the file when the stripped text is empty; otherwise classify
(a classifier exception propagates out of the loop), disambiguate the
destination name with the incrementing counter loop, and copy (source is
preserved, the input is never modified or deleted). -/
def processMLFile (env : MLSortEnv) (st : MLSortState) (f : SFile) :
    Except String MLSortState :=
  let text := mlExtractText env f
  if pyStrip text = "" then
    Except.ok { st with skipped := st.skipped ++ [f.name] }
  else
    (classify_text env text).map (fun category =>
      let newName := counterFreeName (catNames st.tree category) f.name
      { st with tree := st.tree ++ [(category, newName, f.content)] })

/-- organize_files of books/util/book_sorter.py over the eligible files, from
an initial output tree (the output root may pre-exist).  The fold is in
Except: an uncaught exception in the loop body aborts the remaining files. -/
def organize_files (env : MLSortEnv) (st : MLSortState) (files : List SFile) :
    Except String MLSortState :=
  files.foldlM (processMLFile env) st

/-- The external extractors used by organize_by_keywords
(src/util/book_sorter.py): all wrapped in try/except, so total. -/
structure KwEnv where
  pdfText : String → String
  epubText : String → String
  txtText : String → String

/-- State of organize_by_keywords: the SORTED_DIR tree and the total_sorted
counter. -/
structure KwState where
  tree : List (String × String × List Nat)
  totalSorted : Nat
deriving DecidableEq

/-- Writes a copy at (cat, name), replacing any existing file there
(shutil.copy2 overwrites its destination). -/
def treeWrite (cat name : String) (v : List Nat)
    (tree : List (String × String × List Nat)) : List (String × String × List Nat) :=
  tree.filter (fun e => decide (¬(e.1 = cat ∧ e.2.1 = name))) ++ [(cat, name, v)]

/-- The suffix dispatch of organize_by_keywords. -/
def kwExtractText (env : KwEnv) (f : SFile) : String :=
  let sfx := pyLower (splitStemSuffix f.name).2
  if sfx = ".pdf" then env.pdfText f.name
  else if sfx = ".epub" then env.epubText f.name
  else if sfx = ".txt" then env.txtText f.name
  else ""

/-- One file step of organize_by_keywords (src/util/book_sorter.py): extract
text, extract keywords, categorize, and copy to SORTED_DIR/category/name —
with no empty-text check, no collision handling and no skip accounting. -/
def kwSortFile (env : KwEnv) (st : KwState) (f : SFile) : KwState :=
  let text := kwExtractText env f
  let category := categorize_by_keywords (extract_keywords text)
  ⟨treeWrite category f.name f.content st.tree, st.totalSorted + 1⟩

/-- organize_by_keywords of src/util/book_sorter.py, from an initial SORTED_DIR
tree (the directory may pre-exist). -/
def organize_by_keywords (env : KwEnv) (st : KwState) (files : List SFile) : KwState :=
  files.foldl (kwSortFile env) st

/-- Strings with equal character data are equal. -/
theorem strEq_of_data {a b : String} (h : a.data = b.data) : a = b := by
  cases a; cases b; exact congrArg String.mk h

/-- Appending strings appends their character data. -/
theorem strData_append (a b : String) : (a ++ b).data = a.data ++ b.data :=
  String.data_append a b

/-- Appending the empty string is the identity. -/
theorem strAppend_empty (s : String) : s ++ "" = s := by
  apply strEq_of_data
  rw [strData_append]
  simp

/-- The stem and suffix computed by splitStemSuffix concatenate back to the name. -/
theorem splitStemSuffix_append (name : String) :
    (splitStemSuffix name).1 ++ (splitStemSuffix name).2 = name := by
  unfold splitStemSuffix
  dsimp only
  split
  · split
    · apply strEq_of_data
      rw [strData_append]
      show List.take _ name.data ++ List.drop _ name.data = name.data
      exact List.take_append_drop _ name.data
    · exact strAppend_empty name
  · exact strAppend_empty name

/-- nextCopyName lengthens a name by exactly the five characters of `_copy`. -/
theorem nextCopyName_length (name : String) :
    (nextCopyName name).length = name.length + 5 := by
  have h := splitStemSuffix_append name
  have h1 : (nextCopyName name).length
      = (splitStemSuffix name).1.length + ("_copy" : String).length
        + (splitStemSuffix name).2.length := by
    show ((splitStemSuffix name).1 ++ "_copy" ++ (splitStemSuffix name).2).length = _
    rw [String.length_append, String.length_append]
  have h2 : (splitStemSuffix name).1.length + (splitStemSuffix name).2.length
      = name.length := by
    rw [← String.length_append, h]
  have h3 : ("_copy" : String).length = 5 := rfl
  omega

/-- The digit list of a natural number is nonempty when enough fuel is given. -/
theorem natReprAux_ne_nil (fuel n : Nat) (h : 0 < fuel) : natReprAux fuel n ≠ [] := by
  cases fuel with
  | zero => omega
  | succ fuel =>
    unfold natReprAux
    by_cases h10 : n < 10
    · simp [h10]
    · simp [h10]

/-- The numeric value read back from a digit list. -/
def reprVal (l : List Char) : Nat :=
  l.foldl (fun acc c => 10 * acc + (c.toNat - 48)) 0

/-- reprVal of a list with one digit appended. -/
theorem reprVal_append (l : List Char) (c : Char) :
    reprVal (l ++ [c]) = 10 * reprVal l + (c.toNat - 48) := by
  unfold reprVal
  rw [List.foldl_append]
  rfl

/-- Digit characters decode back to their value. -/
theorem digitChar_val (m : Nat) (h : m < 10) : (Nat.digitChar m).toNat - 48 = m := by
  interval_cases m <;> decide

/-- natReprAux is correct: reading its digits back yields the number. -/
theorem reprVal_natReprAux : ∀ fuel n, n < fuel → reprVal (natReprAux fuel n) = n := by
  intro fuel
  induction fuel with
  | zero => intro n h; omega
  | succ fuel ih =>
    intro n h
    unfold natReprAux
    by_cases h10 : n < 10
    · simp only [h10, if_true]
      have : reprVal [Nat.digitChar n] = (Nat.digitChar n).toNat - 48 := by
        unfold reprVal; simp [List.foldl]
      rw [this, digitChar_val n h10]
    · simp only [h10, if_false]
      rw [reprVal_append]
      have hdiv : n / 10 < fuel := by omega
      rw [ih (n / 10) hdiv, digitChar_val (n % 10) (by omega)]
      omega

/-- Distinct numbers have distinct decimal representations. -/
theorem natRepr_injective : Function.Injective natRepr := by
  intro a b h
  have ha : reprVal (natReprAux (a + 1) a) = a := reprVal_natReprAux (a + 1) a (by omega)
  have hb : reprVal (natReprAux (b + 1) b) = b := reprVal_natReprAux (b + 1) b (by omega)
  have hdata : natReprAux (a + 1) a = natReprAux (b + 1) b :=
    congrArg String.data h
  rw [← ha, ← hb, hdata]

/-- natRepr is never the empty string. -/
theorem natRepr_ne_empty (n : Nat) : natRepr n ≠ "" := by
  intro h
  have : natReprAux (n + 1) n = [] := congrArg String.data h
  exact natReprAux_ne_nil (n + 1) n (by omega) this

/-- The candidate names of organize_files' counter loop are pairwise distinct. -/
theorem counterCand_injective (stem sfx : String) :
    Function.Injective (counterCand stem sfx) := by
  have hlen : ∀ k, (counterCand stem sfx (k + 1)).length
      = stem.length + 1 + (natRepr (k + 1)).length + sfx.length := by
    intro k
    show (stem ++ "_" ++ natRepr (k + 1) ++ sfx).length = _
    rw [String.length_append, String.length_append, String.length_append]
    rfl
  intro a b h
  cases a with
  | zero =>
    cases b with
    | zero => rfl
    | succ b =>
      exfalso
      have h0 : (counterCand stem sfx 0).length = stem.length + sfx.length := by
        show (stem ++ sfx).length = _
        rw [String.length_append]
      have hb := hlen b
      have hne : (natRepr (b + 1)).length ≠ 0 := by
        intro hz
        apply natRepr_ne_empty (b + 1)
        apply strEq_of_data
        have : (natRepr (b + 1)).data.length = 0 := hz
        simpa using List.length_eq_zero.mp this
      rw [h] at h0
      omega
  | succ a =>
    cases b with
    | zero =>
      exfalso
      have h0 : (counterCand stem sfx 0).length = stem.length + sfx.length := by
        show (stem ++ sfx).length = _
        rw [String.length_append]
      have hb := hlen a
      have hne : (natRepr (a + 1)).length ≠ 0 := by
        intro hz
        apply natRepr_ne_empty (a + 1)
        apply strEq_of_data
        have : (natRepr (a + 1)).data.length = 0 := hz
        simpa using List.length_eq_zero.mp this
      rw [← h] at h0
      omega
    | succ b =>
      have hdata : (counterCand stem sfx (a + 1)).data = (counterCand stem sfx (b + 1)).data :=
        congrArg String.data h
      have ha' : (counterCand stem sfx (a + 1)).data
          = stem.data ++ "_".data ++ (natRepr (a + 1)).data ++ sfx.data := by
        show (stem ++ "_" ++ natRepr (a + 1) ++ sfx).data = _
        rw [strData_append, strData_append, strData_append]
      have hb' : (counterCand stem sfx (b + 1)).data
          = stem.data ++ "_".data ++ (natRepr (b + 1)).data ++ sfx.data := by
        show (stem ++ "_" ++ natRepr (b + 1) ++ sfx).data = _
        rw [strData_append, strData_append, strData_append]
      rw [ha', hb'] at hdata
      have h1 := List.append_cancel_right hdata
      have h2 := List.append_cancel_left h1
      have h3 : natRepr (a + 1) = natRepr (b + 1) := strEq_of_data h2
      have := natRepr_injective h3
      omega

/-- If some candidate reachable within the available fuel is free, the counter
loop ends on a free name. -/
theorem counterAux_free (taken : List String) (stem sfx : String) :
    ∀ fuel k : Nat,
      ((∃ j, k ≤ j ∧ j < k + fuel ∧ counterCand stem sfx j ∉ taken) ∨
        counterCand stem sfx (k + fuel) ∉ taken) →
      counterNameAux taken stem sfx fuel (k + 1) (counterCand stem sfx k) ∉ taken := by
  intro fuel
  induction fuel with
  | zero =>
    intro k h
    rcases h with ⟨j, hk, hlt, _⟩ | hfree
    · omega
    · simpa using hfree
  | succ fuel ih =>
    intro k h
    unfold counterNameAux
    by_cases hmem : counterCand stem sfx k ∈ taken
    · rw [if_pos hmem]
      have hstep : stem ++ "_" ++ natRepr (k + 1) ++ sfx = counterCand stem sfx (k + 1) := rfl
      rw [hstep]
      have h' : (∃ j, k + 1 ≤ j ∧ j < (k + 1) + fuel ∧ counterCand stem sfx j ∉ taken) ∨
          counterCand stem sfx ((k + 1) + fuel) ∉ taken := by
        rcases h with ⟨j, hk, hlt, hfree⟩ | hfree
        · left
          refine ⟨j, ?_, by omega, hfree⟩
          rcases Nat.eq_or_lt_of_le hk with heq | hlt'
          · exfalso; rw [← heq] at hfree; exact hfree hmem
          · omega
        · right
          have : k + (fuel + 1) = (k + 1) + fuel := by omega
          rw [← this]
          exact hfree
      exact ih (k + 1) h'
    · rw [if_neg hmem]
      exact hmem

/-- Among the first n+1 counter candidates, at least one avoids any list of n
taken names (the candidates are pairwise distinct). -/
theorem counterCand_pigeonhole (taken : List String) (stem sfx : String) :
    ∃ j, j ≤ taken.length ∧ counterCand stem sfx j ∉ taken := by
  by_contra hall
  push_neg at hall
  have hsub : (Finset.range (taken.length + 1)).image (counterCand stem sfx)
      ⊆ taken.toFinset := by
    intro x hx
    rcases Finset.mem_image.mp hx with ⟨j, hj, rfl⟩
    have hj' : j ≤ taken.length := by
      have := Finset.mem_range.mp hj; omega
    exact List.mem_toFinset.mpr (hall j hj')
  have hcard := Finset.card_le_card hsub
  rw [Finset.card_image_of_injective _ (counterCand_injective stem sfx),
    Finset.card_range] at hcard
  have := taken.toFinset_card_le
  omega

/-- The name organize_files' counter loop settles on is not already taken:
the loop terminates within taken.length + 1 iterations on a fresh name, so no
existing file in the category directory is overwritten. -/
theorem counterFreeName_not_mem (taken : List String) (name : String) :
    counterFreeName taken name ∉ taken := by
  unfold counterFreeName
  dsimp only
  set s := (splitStemSuffix name).1 with hs
  set t := (splitStemSuffix name).2 with ht
  have hname : counterCand s t 0 = name := splitStemSuffix_append name
  rw [← hname]
  show counterNameAux taken s t (taken.length + 1) (0 + 1) (counterCand s t 0) ∉ taken
  apply counterAux_free
  left
  rcases counterCand_pigeonhole taken s t with ⟨j, hj, hfree⟩
  exact ⟨j, by omega, by omega, hfree⟩

/-- When the original base name is free in the category directory, the counter
loop keeps it unchanged. -/
theorem counterFreeName_of_free (taken : List String) (name : String)
    (h : name ∉ taken) : counterFreeName taken name = name := by
  unfold counterFreeName
  dsimp only
  unfold counterNameAux
  simp [h]

/-- A property preserved by every step of a fold holds of the fold's result. -/
theorem foldlPreserve {α β : Type} {P : α → Prop} (f : α → β → α)
    (hstep : ∀ a b, P a → P (f a b)) :
    ∀ (l : List β) (a : α), P a → P (l.foldl f a) := by
  intro l
  induction l with
  | nil => intro a ha; exact ha
  | cons x xs ih => intro a ha; exact ih (f a x) (hstep a x ha)

/-- Entries surviving fsRemove were in the original directory. -/
theorem fsRemove_mem {k : String} {fs : List (String × List Nat)}
    {e : String × List Nat} (h : e ∈ fsRemove k fs) : e ∈ fs :=
  List.mem_of_mem_filter h

/-- fsRemove preserves pairwise properties of the directory. -/
theorem fsRemove_pairwise {R : String × List Nat → String × List Nat → Prop}
    {k : String} {fs : List (String × List Nat)} (h : fs.Pairwise R) :
    (fsRemove k fs).Pairwise R :=
  h.sublist (List.filter_sublist fs)

/-- Removing the path just written removes the write entirely. -/
theorem fsRemove_fsWrite (k : String) (v : List Nat) (fs : List (String × List Nat)) :
    fsRemove k (fsWrite k v fs) = fsRemove k fs := by
  unfold fsWrite fsRemove
  rw [List.filter_append, List.filter_filter]
  have h1 : (List.filter (fun e => decide (e.1 ≠ k)) [(k, v)]) = [] := by
    simp
  rw [h1, List.append_nil]
  congr 1
  funext e
  rw [Bool.and_self]

/-- The invariant of extract_and_dedup: every stored file's digest is a key of
seen_hashes, and stored digests are pairwise distinct. -/
def DedupInv (md5 : List Nat → String) (st : DedupState) : Prop :=
  (∀ e ∈ st.store, md5 e.2 ∈ st.seen.map Prod.fst) ∧
    st.store.Pairwise (fun a b => md5 a.2 ≠ md5 b.2)

/-- One extract_and_dedup member step preserves the dedup invariant. -/
theorem dedupMember_inv (md5 : List Nat → String) (st : DedupState) (m : Member)
    (h : DedupInv md5 st) : DedupInv md5 (dedupMember md5 st m) := by
  unfold dedupMember
  by_cases hdir : m.isDir
  · simpa [hdir] using h
  · rw [if_neg hdir]
    dsimp only
    by_cases hseen : md5 m.content ∈ st.seen.map Prod.fst
    · rw [if_pos hseen]; exact h
    · rw [if_neg hseen]
      obtain ⟨hkeys, hpair⟩ := h
      constructor
      · intro e he
        show md5 e.2 ∈ (st.seen ++ [(md5 m.content, _)]).map Prod.fst
        rw [List.map_append]
        rcases List.mem_append.mp he with hold | hnew
        · exact List.mem_append.mpr (Or.inl (hkeys e hold))
        · rcases List.mem_singleton.mp hnew with rfl
          exact List.mem_append.mpr (Or.inr (by simp))
      · show List.Pairwise _ (st.store ++ [_])
        rw [List.pairwise_append]
        refine ⟨hpair, List.pairwise_singleton _ _, ?_⟩
        intro a ha b hb
        rcases List.mem_singleton.mp hb with rfl
        intro heq
        exact hseen (heq ▸ hkeys a ha)

/-- The invariant of prepare_root_dir: every file under ROOT_OUTPUT has its
digest in seen_hashes, and the digests are pairwise distinct. -/
def PrepInv (md5 : List Nat → String) (st : PrepState) : Prop :=
  (∀ e ∈ st.fs, md5 e.2 ∈ st.seen) ∧
    st.fs.Pairwise (fun a b => md5 a.2 ≠ md5 b.2)

/-- One prepare_root_dir member step preserves the invariant: removed or
deduplicated extractions only shrink the directory, and a newly stored file
has a digest absent from every existing file's. -/
theorem prepMember_inv (md5 : List Nat → String) (st : PrepState) (m : Member)
    (h : PrepInv md5 st) : PrepInv md5 (prepMember md5 st m) := by
  obtain ⟨hkeys, hpair⟩ := h
  unfold prepMember
  by_cases hdir : m.isDir
  · rw [if_pos hdir]; exact ⟨hkeys, hpair⟩
  · rw [if_neg hdir]
    dsimp only
    by_cases hz : m.content.length = 0
    · rw [if_pos hz]
      refine ⟨?_, ?_⟩
      · intro e he
        rw [fsRemove_fsWrite] at he
        exact hkeys e (fsRemove_mem he)
      · show List.Pairwise _ (fsRemove _ (fsWrite _ _ st.fs))
        rw [fsRemove_fsWrite]
        exact fsRemove_pairwise hpair
    · rw [if_neg hz]
      by_cases hseen : md5 m.content ∈ st.seen
      · rw [if_pos hseen]
        refine ⟨?_, ?_⟩
        · intro e he
          rw [fsRemove_fsWrite] at he
          exact hkeys e (fsRemove_mem he)
        · show List.Pairwise _ (fsRemove _ (fsWrite _ _ st.fs))
          rw [fsRemove_fsWrite]
          exact fsRemove_pairwise hpair
      · rw [if_neg hseen]
        rw [fsRemove_fsWrite]
        constructor
        · intro e he
          unfold fsWrite at he
          rcases List.mem_append.mp he with hold | hnew
          · exact List.mem_append.mpr (Or.inl (hkeys e (fsRemove_mem (fsRemove_mem hold))))
          · rcases List.mem_singleton.mp hnew with rfl
            exact List.mem_append.mpr (Or.inr (by simp))
        · unfold fsWrite
          rw [List.pairwise_append]
          refine ⟨fsRemove_pairwise (fsRemove_pairwise hpair),
            List.pairwise_singleton _ _, ?_⟩
          intro a ha b hb
          rcases List.mem_singleton.mp hb with rfl
          intro heq
          exact hseen (heq ▸ hkeys a (fsRemove_mem (fsRemove_mem ha)))

/-- Every run produced by findRunsAux is nonempty, consists of characters of
the class, and occurs contiguously in the scanned list. -/
theorem findRunsAux_spec (p : Char → Bool) :
    ∀ (fuel : Nat) (cs : List Char), ∀ r ∈ findRunsAux p fuel cs,
      r ≠ [] ∧ r.all p = true ∧ ∃ s t, cs = s ++ r ++ t := by
  intro fuel
  induction fuel with
  | zero => intro cs r hr; cases hr
  | succ fuel ih =>
    intro cs r hr
    cases cs with
    | nil => cases hr
    | cons c rest =>
      have hr : r ∈ (if p c = true then
          (c :: rest.takeWhile p) :: findRunsAux p fuel (rest.dropWhile p)
        else findRunsAux p fuel rest) := hr
      by_cases hc : p c = true
      · rw [if_pos hc] at hr
        rcases List.mem_cons.mp hr with rfl | hr'
        · refine ⟨by simp, ?_, [], rest.dropWhile p, ?_⟩
          · rw [List.all_cons, hc, Bool.true_and, List.all_eq_true]
            intro x hx
            exact List.mem_takeWhile_imp hx
          · rw [List.nil_append, List.cons_append]
            rw [List.takeWhile_append_dropWhile]
        · rcases ih (rest.dropWhile p) r hr' with ⟨hne, hall, s, t, hdec⟩
          refine ⟨hne, hall, c :: rest.takeWhile p ++ s, t, ?_⟩
          have hrest : rest = rest.takeWhile p ++ (s ++ r ++ t) := by
            rw [← hdec, List.takeWhile_append_dropWhile]
          conv_lhs => rw [hrest]
          simp [List.append_assoc]
      · rw [if_neg hc] at hr
        rcases ih rest r hr with ⟨hne, hall, s, t, hdec⟩
        exact ⟨hne, hall, c :: s, t, by rw [List.cons_append, List.cons_append, ← hdec]⟩

/-- Stripping leaves a contiguous slice of the original list. -/
theorem pyStripList_decomp (l : List Char) :
    ∃ s t, l = s ++ pyStripList l ++ t := by
  have h1 : l.takeWhile pyWs ++ l.dropWhile pyWs = l :=
    List.takeWhile_append_dropWhile pyWs l
  have h2 : (l.dropWhile pyWs).reverse.takeWhile pyWs
      ++ (l.dropWhile pyWs).reverse.dropWhile pyWs = (l.dropWhile pyWs).reverse :=
    List.takeWhile_append_dropWhile pyWs (l.dropWhile pyWs).reverse
  have h3 := congrArg List.reverse h2
  rw [List.reverse_append, List.reverse_reverse] at h3
  refine ⟨l.takeWhile pyWs, ((l.dropWhile pyWs).reverse.takeWhile pyWs).reverse, ?_⟩
  rw [List.append_assoc]
  have h4 : pyStripList l ++ ((l.dropWhile pyWs).reverse.takeWhile pyWs).reverse
      = l.dropWhile pyWs := h3
  rw [h4, h1]

/-- Characters of the stripped list come from the original list. -/
theorem pyStripList_mem {l : List Char} {c : Char} (h : c ∈ pyStripList l) : c ∈ l := by
  rcases pyStripList_decomp l with ⟨s, t, hd⟩
  rw [hd, List.append_assoc]
  exact List.mem_append.mpr (Or.inr (List.mem_append.mpr (Or.inl h)))

/-- Boolean any respects membership-equivalent keyword lists. -/
theorem anyCongr {k1 k2 : List String} (h : ∀ x, x ∈ k1 ↔ x ∈ k2)
    (p : String → Bool) : k1.any p = k2.any p := by
  have hiff : (k1.any p = true) ↔ (k2.any p = true) := by
    simp only [List.any_eq_true]
    constructor
    · rintro ⟨x, hx, hp⟩; exact ⟨x, (h x).mp hx, hp⟩
    · rintro ⟨x, hx, hp⟩; exact ⟨x, (h x).mpr hx, hp⟩
  cases h1 : k1.any p with
  | true => exact (hiff.mp h1).symm
  | false =>
    cases h2 : k2.any p with
    | true => rw [h1] at hiff; rw [← hiff.mpr h2]
    | false => rfl

/-- catMatch only depends on which keywords are present. -/
theorem catMatch_congr (c : String × List String) {k1 k2 : List String}
    (h : ∀ x, x ∈ k1 ↔ x ∈ k2) : catMatch c k1 = catMatch c k2 := by
  unfold catMatch
  have hfun : (fun term => k1.any (fun kw => pyIn term (pyLower kw)))
      = (fun term => k2.any (fun kw => pyIn term (pyLower kw))) := by
    funext term
    exact anyCongr h (fun kw => pyIn term (pyLower kw))
  rw [hfun]

/-- The category loop only depends on which keywords are present. -/
theorem categorizeAux_congr {k1 k2 : List String} (h : ∀ x, x ∈ k1 ↔ x ∈ k2) :
    ∀ table, categorizeAux k1 table = categorizeAux k2 table := by
  intro table
  induction table with
  | nil => rfl
  | cons c rest ih =>
    unfold categorizeAux
    rw [catMatch_congr c h, ih]

/-- Characterization of the category loop: either no table entry matches and
the result is "Uncategorized", or the result is the name of the first
matching entry. -/
theorem categorizeAux_spec (keywords : List String) :
    ∀ table : List (String × List String),
      (categorizeAux keywords table = "Uncategorized" ∧
        ∀ c ∈ table, catMatch c keywords = false) ∨
      (∃ i : Fin table.length,
        categorizeAux keywords table = (table.get i).1 ∧
        catMatch (table.get i) keywords = true ∧
        ∀ j : Fin table.length, j < i → catMatch (table.get j) keywords = false) := by
  intro table
  induction table with
  | nil => left; exact ⟨rfl, by intro c hc; cases hc⟩
  | cons c rest ih =>
    by_cases h : catMatch c keywords = true
    · right
      refine ⟨⟨0, by simp⟩, ?_, h, ?_⟩
      · show categorizeAux keywords (c :: rest) = c.1
        unfold categorizeAux
        rw [if_pos h]
      · intro j hj
        exact absurd hj (by simp [Fin.lt_def])
    · have hf : catMatch c keywords = false := by
        cases hcb : catMatch c keywords with
        | true => exact absurd hcb h
        | false => rfl
      rcases ih with ⟨hu, hall⟩ | ⟨i, heq, hm, hprior⟩
      · left
        constructor
        · show categorizeAux keywords (c :: rest) = _
          unfold categorizeAux
          rw [if_neg h]
          exact hu
        · intro x hx
          rcases List.mem_cons.mp hx with rfl | hx'
          · exact hf
          · exact hall x hx'
      · right
        refine ⟨⟨i.val + 1, by simp [Nat.succ_lt_succ i.isLt]⟩, ?_, ?_, ?_⟩
        · show categorizeAux keywords (c :: rest) = _
          unfold categorizeAux
          rw [if_neg h, heq]
          congr 1
        · show catMatch (rest.get i) keywords = true
          exact hm
        · intro j hj
          rcases j with ⟨jv, hjv⟩
          cases jv with
          | zero => exact hf
          | succ jv' =>
            have hj' : jv' < i.val := by simpa [Fin.lt_def] using hj
            have := hprior ⟨jv', by omega⟩ (by simpa [Fin.lt_def] using hj')
            exact this

/-- Decidable equality of Except results, for evaluating concrete runs. -/
instance {ε α : Type} [DecidableEq ε] [DecidableEq α] : DecidableEq (Except ε α) := fun a b =>
  match a, b with
  | Except.ok x, Except.ok y =>
    if h : x = y then Decidable.isTrue (by rw [h])
    else Decidable.isFalse (by intro hc; cases hc; exact h rfl)
  | Except.error x, Except.error y =>
    if h : x = y then Decidable.isTrue (by rw [h])
    else Decidable.isFalse (by intro hc; cases hc; exact h rfl)
  | Except.ok _, Except.error _ => Decidable.isFalse (by intro hc; cases hc)
  | Except.error _, Except.ok _ => Decidable.isFalse (by intro hc; cases hc)

/-- A file whose extracted text strips to empty is skipped by organize_files:
the tree is untouched, the name is recorded, and no error occurs. -/
theorem processMLFile_skip_of_empty (env : MLSortEnv) (st : MLSortState) (f : SFile)
    (h : pyStrip (mlExtractText env f) = "") :
    processMLFile env st f = Except.ok { st with skipped := st.skipped ++ [f.name] } := by
  unfold processMLFile
  dsimp only
  rw [if_pos h]

/-- A concrete digest for running the models on explicit inputs: the bytes
spelled as digit characters (injective on the byte lists used here, as the
real MD5 is assumed to be on distinct small inputs). -/
def md5Digits (c : List Nat) : String :=
  (c.map Nat.digitChar).asString

/-- Claim C1: for every digest function and every list of archives, after a
deduplication run into a fresh output directory no two stored files have
equal ContentFingerprint — a member whose fingerprint is already in the
seen set is discarded, so each fingerprint maps to at most one stored file.
This holds for both deduplicator variants (extract_and_dedup and
prepare_root_dir). -/
theorem c1_fingerprint_unique (md5 : List Nat → String) (zips : List Archive) :
    (extract_and_dedup md5 zips).store.Pairwise (fun a b => md5 a.2 ≠ md5 b.2) ∧
    (prepare_root_dir md5 zips).fs.Pairwise (fun a b => md5 a.2 ≠ md5 b.2) := by
  constructor
  · have houter : ∀ (l : List Archive) (st : DedupState), DedupInv md5 st →
        DedupInv md5 (l.foldl (dedupArchive md5) st) :=
      foldlPreserve (dedupArchive md5) (fun st arch h =>
        foldlPreserve (dedupMember md5) (fun s m hh => dedupMember_inv md5 s m hh) arch st h)
    have hinit : DedupInv md5 ⟨[], []⟩ := ⟨(by intro e he; cases he), List.Pairwise.nil⟩
    exact (houter zips ⟨[], []⟩ hinit).2
  · have houter : ∀ (l : List Archive) (st : PrepState), PrepInv md5 st →
        PrepInv md5 (l.foldl (fun st arch => arch.foldl (prepMember md5) st) st) :=
      foldlPreserve _ (fun st arch h =>
        foldlPreserve (prepMember md5) (fun s m hh => prepMember_inv md5 s m hh) arch st h)
    have hinit : PrepInv md5 ⟨[], [], 0, 0, 0⟩ := ⟨(by intro e he; cases he), List.Pairwise.nil⟩
    exact (houter zips ⟨[], [], 0, 0, 0⟩ hinit).2

/-- Claim C2 (evaluation at the failing input): prepare_root_dir applies the
`_copy` marker only once, with an `if` instead of a retry loop, and extracts
directly into the output directory, so the extraction of a flat member always
collides with itself.  Running it on two archives that each hold a distinct
member named a.txt: after archive one the store holds ("a_copy.txt", [1]);
after archive two that file has been overwritten by the move of the second
member — the final store is one file although two were counted extracted. -/
theorem c2_prepare_root_dir_overwrites :
    ("a_copy.txt", [1])
        ∈ (prepare_root_dir md5Digits [[⟨"a.txt", false, [1]⟩]]).fs ∧
    (prepare_root_dir md5Digits [[⟨"a.txt", false, [1]⟩], [⟨"a.txt", false, [2]⟩]]).fs
        = [("a_copy.txt", [2])] ∧
    (prepare_root_dir md5Digits [[⟨"a.txt", false, [1]⟩], [⟨"a.txt", false, [2]⟩]]).extracted
        = 2 := by
  refine ⟨by decide, by decide, by decide⟩

/-- Claim C3 (counterexample): the extract_and_dedup variant has no zero-byte
check at all — a zero-byte member is fingerprinted and the first one is stored
in the dedup output, and no "empty" count exists in that variant. -/
theorem c3_zero_byte_stored_counterexample :
    (extract_and_dedup md5Digits [[⟨"empty.txt", false, []⟩]]).store
      = [("empty.txt", [])] := by
  decide

/-- Claim C3 (amended, prepare_root_dir): a zero-byte non-directory member is
removed before any fingerprint is recorded and counted under empty only: the
extracted copy is deleted, seen_hashes and the extracted and duplicate
counters are unchanged, and the empty counter is incremented. -/
theorem c3_prepare_empty_skip (md5 : List Nat → String) (st : PrepState) (m : Member)
    (hd : m.isDir = false) (hz : m.content = []) :
    prepMember md5 st m
      = { st with fs := fsRemove m.filename st.fs, empty := st.empty + 1 } := by
  unfold prepMember
  rw [if_neg (by rw [hd]; exact Bool.false_ne_true)]
  dsimp only
  rw [if_pos (by rw [hz]; rfl)]
  rw [fsRemove_fsWrite]

/-- Witness for c3_prepare_empty_skip at a concrete state and member. -/
theorem c3_witness :
    prepMember md5Digits ⟨[("b.txt", [7])], ["7"], 1, 0, 0⟩ ⟨"empty.txt", false, []⟩
      = ⟨[("b.txt", [7])], ["7"], 1, 0, 1⟩ := by
  have h := c3_prepare_empty_skip md5Digits ⟨[("b.txt", [7])], ["7"], 1, 0, 0⟩
    ⟨"empty.txt", false, []⟩ rfl rfl
  rw [h]
  decide

/-- Claim C4: for every label distribution the classifier returns, classify_text
accepts the top label exactly when its score strictly exceeds 0.4 (= mkRat 2 5,
scores modeled as rationals): above the threshold the top label is returned, at
or below it — in particular exactly at 0.4 — the result is "Uncategorized". -/
theorem c4_confidence_threshold (env : MLSortEnv) (text : String) (r : ZSResult)
    (h : env.classifier text = Except.ok r) :
    (mkRat 2 5 < r.scores.getD 0 0 →
      classify_text env text = Except.ok (r.labels.getD 0 "")) ∧
    (r.scores.getD 0 0 ≤ mkRat 2 5 →
      classify_text env text = Except.ok "Uncategorized") ∧
    (r.scores.getD 0 0 = mkRat 2 5 →
      classify_text env text = Except.ok "Uncategorized") := by
  unfold classify_text
  rw [h]
  refine ⟨?_, ?_, ?_⟩
  · intro hlt
    dsimp [Except.map]
    rw [if_pos hlt]
  · intro hle
    dsimp [Except.map]
    rw [if_neg (not_lt.mpr hle)]
  · intro heq
    dsimp [Except.map]
    rw [if_neg (by rw [heq]; exact lt_irrefl _)]

/-- The classifier used in the c4 witness: top score exactly at the boundary. -/
def envC4 : MLSortEnv :=
  ⟨fun _ => Except.error "", fun _ => Except.error "", fun _ => Except.error "",
   fun _ => Except.ok ⟨["Cryptography", "Network Security"], [mkRat 2 5, mkRat 1 5]⟩⟩

/-- Witness for c4_confidence_threshold: a top score of exactly 0.4 yields
"Uncategorized". -/
theorem c4_witness : classify_text envC4 "sample" = Except.ok "Uncategorized" :=
  (c4_confidence_threshold envC4 "sample"
    ⟨["Cryptography", "Network Security"], [mkRat 2 5, mkRat 1 5]⟩ rfl).2.2 (by decide)

/-- Claim C5: for every keyword list, categorize_by_keywords either returns
"Uncategorized" with no category of the table matching, or returns the name
of the first category, in declaration order of CATEGORIES, one of whose terms
matches a keyword. -/
theorem c5_first_category_wins (keywords : List String) :
    (categorize_by_keywords keywords = "Uncategorized" ∧
      ∀ c ∈ CATEGORIES, catMatch c keywords = false) ∨
    (∃ i : Fin CATEGORIES.length,
      categorize_by_keywords keywords = (CATEGORIES.get i).1 ∧
      catMatch (CATEGORIES.get i) keywords = true ∧
      ∀ j : Fin CATEGORIES.length, j < i → catMatch (CATEGORIES.get j) keywords = false) :=
  categorizeAux_spec keywords CATEGORIES

/-- Claim C6 (counterexample): organize_by_keywords has no empty-text check:
a file whose extracted text is empty is classified anyway, copied into the
Uncategorized folder and counted as sorted, with no skip recorded. -/
theorem c6_empty_text_copied_counterexample :
    organize_by_keywords ⟨fun _ => "", fun _ => "", fun _ => ""⟩ ⟨[], 0⟩ [⟨"a.txt", [1]⟩]
      = ⟨[("Uncategorized", "a.txt", [1])], 1⟩ := by
  decide

/-- Claim C6 (amended, organize_files): a file whose extracted text is empty or
whitespace-only is skipped — the categorized tree is unchanged, the file is
recorded as skipped, and no error occurs; the input file itself is never
touched (the sorter only copies).  The classifier is not consulted: the very
same result holds for every classifier, including an always-raising one. -/
theorem c6_organize_files_skips_empty (env : MLSortEnv) (st : MLSortState) (f : SFile)
    (h : pyStrip (mlExtractText env f) = "") :
    processMLFile env st f = Except.ok { st with skipped := st.skipped ++ [f.name] } :=
  processMLFile_skip_of_empty env st f h

/-- Extractors for the c6 witness: whitespace-only text and a classifier that
would raise if it were ever consulted. -/
def envC6w : MLSortEnv :=
  ⟨fun _ => Except.error "", fun _ => Except.error "",
   fun _ => Except.ok "  \t ", fun _ => Except.error "classifier raises"⟩

/-- Witness for c6_organize_files_skips_empty at a concrete state and file. -/
theorem c6_witness :
    processMLFile envC6w ⟨[("Cyber Law", "b.txt", [2])], ["old.txt"]⟩ ⟨"a.txt", [1]⟩
      = Except.ok ⟨[("Cyber Law", "b.txt", [2])], ["old.txt", "a.txt"]⟩ := by
  have h := c6_organize_files_skips_empty envC6w
    ⟨[("Cyber Law", "b.txt", [2])], ["old.txt"]⟩ ⟨"a.txt", [1]⟩ (by decide)
  rw [h]
  decide

/-- Claim C7 (counterexample): organize_by_keywords has no collision handling:
copying a file into a category directory that already holds a file of the same
name overwrites it — the pre-existing content [9] of Uncategorized/a.txt is
replaced, with no numeric suffix ever tried. -/
theorem c7_sorter_overwrite_counterexample :
    organize_by_keywords ⟨fun _ => "", fun _ => "", fun _ => ""⟩
        ⟨[("Uncategorized", "a.txt", [9])], 0⟩ [⟨"a.txt", [1]⟩]
      = ⟨[("Uncategorized", "a.txt", [1])], 1⟩ := by
  decide

/-- Claim C7 (amended, organize_files): whenever a file is placed, the tree
only grows by one entry whose name is free in its category directory (so the
counter loop terminated on a fresh name and nothing is overwritten), and the
destination is the original base name whenever that name is free. -/
theorem c7_organize_files_collision_safe (env : MLSortEnv) (st st' : MLSortState)
    (f : SFile) (h : processMLFile env st f = Except.ok st') :
    st'.tree = st.tree ∨
    ∃ cat nm, st'.tree = st.tree ++ [(cat, nm, f.content)] ∧
      nm ∉ catNames st.tree cat ∧
      (f.name ∉ catNames st.tree cat → nm = f.name) := by
  unfold processMLFile at h
  dsimp only at h
  by_cases he : pyStrip (mlExtractText env f) = ""
  · rw [if_pos he] at h
    injection h with h2
    left
    rw [← h2]
  · rw [if_neg he] at h
    cases hc : classify_text env (mlExtractText env f) with
    | error e =>
      rw [hc] at h
      exact Except.noConfusion h
    | ok cat =>
      rw [hc] at h
      dsimp [Except.map] at h
      injection h with h2
      right
      refine ⟨cat, counterFreeName (catNames st.tree cat) f.name, ?_, ?_, ?_⟩
      · rw [← h2]
      · exact counterFreeName_not_mem _ _
      · intro hfree
        exact counterFreeName_of_free _ _ hfree

/-- Environment for the c7 witness: readable text, a confident classifier. -/
def envC7w : MLSortEnv :=
  ⟨fun _ => Except.error "", fun _ => Except.error "",
   fun _ => Except.ok "nmap and burp", fun _ => Except.ok ⟨["Penetration Testing"], [1]⟩⟩

/-- Witness for c7_organize_files_collision_safe at a concrete run. -/
theorem c7_witness :
    (⟨[("Penetration Testing", "a.txt", [1])], []⟩ : MLSortState).tree
        = (⟨[], []⟩ : MLSortState).tree ∨
    ∃ cat nm, (⟨[("Penetration Testing", "a.txt", [1])], []⟩ : MLSortState).tree
        = (⟨[], []⟩ : MLSortState).tree ++ [(cat, nm, ([1] : List Nat))] ∧
      nm ∉ catNames (⟨[], []⟩ : MLSortState).tree cat ∧
      ("a.txt" ∉ catNames (⟨[], []⟩ : MLSortState).tree cat → nm = "a.txt") :=
  c7_organize_files_collision_safe envC7w ⟨[], []⟩
    ⟨[("Penetration Testing", "a.txt", [1])], []⟩ ⟨"a.txt", [1]⟩ (by decide)

/-- Environment for the c8 counterexample: a reachable text extractor and an
always-raising classifier. -/
def envC8x : MLSortEnv :=
  ⟨fun _ => Except.error "pdf down", fun _ => Except.error "epub down",
   fun _ => Except.ok "some text", fun _ => Except.error "classifier crashed"⟩

/-- Claim C8 (counterexample): classify_text wraps no try/except around the
classifier call, so a classifier exception propagates out of the loop of
organize_files and aborts the whole batch — the run on two files ends in the
error, with the second file never processed and no skip recorded. -/
theorem c8_classifier_abort_counterexample :
    organize_files envC8x ⟨[], []⟩ [⟨"a.txt", [1]⟩, ⟨"b.txt", [2]⟩]
      = Except.error "classifier crashed" := by
  decide

/-- Claim C8 (amended): an extractor failure is caught inside
extract_text_from_pdf and becomes an empty text, so the file is merely
skipped and the batch continues; a classifier failure on a readable file is
not caught — processMLFile propagates it and the whole organize_files batch
aborts with that error. -/
theorem c8_extractor_caught_classifier_propagates (env : MLSortEnv)
    (st : MLSortState) (f : SFile) :
    (pyLower (splitStemSuffix f.name).2 = ".pdf" →
      (∃ e, env.pdfRaw f.name = Except.error e) →
      processMLFile env st f
        = Except.ok { st with skipped := st.skipped ++ [f.name] }) ∧
    (∀ e rest, pyStrip (mlExtractText env f) ≠ "" →
      env.classifier (mlExtractText env f) = Except.error e →
      organize_files env st (f :: rest) = Except.error e) := by
  constructor
  · rintro hpdf ⟨e, he⟩
    have htext : mlExtractText env f = "" := by
      unfold mlExtractText
      dsimp only
      rw [if_pos hpdf]
      unfold extract_text_from_pdf
      rw [he]
    exact processMLFile_skip_of_empty env st f (by rw [htext]; rfl)
  · intro e rest hne hcls
    have hproc : processMLFile env st f = Except.error e := by
      unfold processMLFile
      dsimp only
      rw [if_neg hne]
      unfold classify_text
      rw [hcls]
      rfl
    show List.foldlM (processMLFile env) st (f :: rest) = Except.error e
    rw [List.foldlM_cons, hproc]
    rfl

/-- Environment for the c8 witness. -/
def envC8w : MLSortEnv :=
  ⟨fun _ => Except.error "io failure", fun _ => Except.error "io failure",
   fun _ => Except.ok "text body", fun _ => Except.error "crash"⟩

/-- Witness for c8_extractor_caught_classifier_propagates: a PDF whose
extractor fails is skipped; a TXT whose classifier fails aborts the batch. -/
theorem c8_witness :
    processMLFile envC8w ⟨[], []⟩ ⟨"doc.pdf", [3]⟩ = Except.ok ⟨[], ["doc.pdf"]⟩ ∧
    organize_files envC8w ⟨[], []⟩ [⟨"doc.txt", [3]⟩] = Except.error "crash" := by
  constructor
  · have h := (c8_extractor_caught_classifier_propagates envC8w ⟨[], []⟩ ⟨"doc.pdf", [3]⟩).1
      (by decide) ⟨"io failure", rfl⟩
    rw [h]
    decide
  · exact (c8_extractor_caught_classifier_propagates envC8w ⟨[], []⟩ ⟨"doc.txt", [3]⟩).2
      "crash" [] (by decide) rfl

/-- Claim C9 (counterexample): the regex class of extract_keywords includes the
space character, so a returned token can contain an interior space — it is not
a sequence of alphanumerics and hyphens as claimed. -/
theorem c9_space_token_counterexample :
    "network security" ∈ extract_keywords "Keywords: network security" ∧
    ' ' ∈ ("network security" : String).toList := by
  refine ⟨by decide, by decide⟩

/-- Claim C9 (amended): every keyword extract_keywords returns has stripped
length at least 4, consists only of ASCII alphanumerics, hyphens and spaces,
and occurs contiguously in some line of the lowercased text that contains a
trigger phrase — tokens are taken from trigger lines only. -/
theorem c9_token_shape (text kw : String) (h : kw ∈ extract_keywords text) :
    4 ≤ kw.length ∧
    kw.toList.all kwChar = true ∧
    ∃ line ∈ pySplitlines (pyLower text),
      (∃ t ∈ KEYWORD_TRIGGERS, pyIn t line = true) ∧
      ∃ s u, line.toList = s ++ kw.toList ++ u := by
  unfold extract_keywords at h
  rw [List.mem_dedup, List.mem_flatMap] at h
  rcases h with ⟨line, hline, h⟩
  rw [List.mem_flatMap] at h
  rcases h with ⟨trig, htrig, h⟩
  by_cases hin : pyIn trig line = true
  case neg => rw [if_neg hin] at h; cases h
  rw [if_pos hin] at h
  unfold lineTokens at h
  rw [List.mem_filter] at h
  rcases h with ⟨hmem, hlen⟩
  rw [List.mem_map] at hmem
  rcases hmem with ⟨w, hw, hkw⟩
  subst hkw
  rcases findRunsAux_spec kwChar line.toList.length line.toList w hw
    with ⟨hne, hall, s, t, hdec⟩
  have hkl : (pyStrip w.asString).toList = pyStripList w := rfl
  refine ⟨?_, ?_, ?_⟩
  · have := of_decide_eq_true hlen
    omega
  · rw [hkl, List.all_eq_true]
    intro c hc
    exact (List.all_eq_true.mp hall) c (pyStripList_mem hc)
  · rcases pyStripList_decomp w with ⟨s2, t2, hw2⟩
    refine ⟨line, hline, ⟨trig, htrig, hin⟩, s ++ s2, t2 ++ t, ?_⟩
    conv_lhs => rw [hdec, hw2]
    rw [hkl]
    simp [List.append_assoc]

/-- Witness for c9_token_shape on a concrete text and token. -/
theorem c9_witness :
    4 ≤ ("topics" : String).length ∧
    ("topics" : String).toList.all kwChar = true ∧
    ∃ line ∈ pySplitlines (pyLower "Topics: RSA"),
      (∃ t ∈ KEYWORD_TRIGGERS, pyIn t line = true) ∧
      ∃ s u, line.toList = s ++ ("topics" : String).toList ++ u :=
  c9_token_shape "Topics: RSA" "topics" (by decide)

/-- Claim C10: the category computed by the keyword pipeline depends only on
which keywords were extracted, not on the order extract_keywords lists them:
membership-equivalent keyword lists give equal categorize_by_keywords results. -/
theorem c10_category_order_insensitive (k1 k2 : List String)
    (h : ∀ x, x ∈ k1 ↔ x ∈ k2) :
    categorize_by_keywords k1 = categorize_by_keywords k2 :=
  categorizeAux_congr h CATEGORIES

/-- Witness for c10_category_order_insensitive on two reorderings. -/
theorem c10_witness :
    categorize_by_keywords ["rsa", "code"] = categorize_by_keywords ["code", "rsa"] :=
  c10_category_order_insensitive ["rsa", "code"] ["code", "rsa"] (by
    intro x
    constructor
    · intro hx
      rcases List.mem_cons.mp hx with rfl | hx'
      · exact List.mem_cons.mpr (Or.inr (List.mem_cons.mpr (Or.inl rfl)))
      · rcases List.mem_cons.mp hx' with rfl | hx''
        · exact List.mem_cons.mpr (Or.inl rfl)
        · cases hx''
    · intro hx
      rcases List.mem_cons.mp hx with rfl | hx'
      · exact List.mem_cons.mpr (Or.inr (List.mem_cons.mpr (Or.inl rfl)))
      · rcases List.mem_cons.mp hx' with rfl | hx''
        · exact List.mem_cons.mpr (Or.inl rfl)
        · cases hx'')
